import Mathlib

/-!
Verification of the godkv replicated key-value store.

This file gives a shallow embedding of the core algorithms of the
repository (vector clocks, the WAL-backed store, read reconciliation,
the consistent-hash ring, and the startup quorum capping) and proves
the specified properties about them.  Go maps from string keys are
embedded as association lists (`List (String × Nat)` for vector clocks),
with absent keys reading as the Go zero value; machine `uint64` and
`uint32` counters are embedded as `Nat`; wall-clock timestamps as `Int`;
fallible operations return `Except`.
-/

namespace GodKV

/-! ## Vector clocks (internal/store/vector_clock.go) -/

/-- ClockRelation mirrors the Go enum: the causal relationship between
two vector clocks. -/
inductive ClockRelation where
  | Before
  | After
  | Equal
  | ConcurrentClocks
deriving DecidableEq, Repr

/-- VectorClock embeds Go's `map[string]uint64` as an association list.
A Go map has no duplicate keys; theorems that need this take a
`vcNodupKeys` hypothesis. -/
abbrev VectorClock := List (String × Nat)

/-- Go map read `vc[node]`: the stored counter, or the zero value 0 when
the key is absent.  On an association list this is the first binding. -/
def vcGet (vc : VectorClock) (node : String) : Nat :=
  match vc.find? (fun p => p.1 == node) with
  | some p => p.2
  | none => 0

/-- Go comma-ok membership test `_, ok := vc[node]`. -/
def vcMem (vc : VectorClock) (node : String) : Bool :=
  (vc.find? (fun p => p.1 == node)).isSome

/-- The Go map has pairwise distinct keys. -/
def vcNodupKeys (vc : VectorClock) : Prop :=
  (vc.map Prod.fst).Nodup

instance (vc : VectorClock) : Decidable (vcNodupKeys vc) :=
  List.nodupDecidable (vc.map Prod.fst)

/-- `Increment` bumps the counter for `node`, creating the entry (at 1)
when absent — Go's `vc[nodeID]++`. -/
def vcIncrement (vc : VectorClock) (node : String) : VectorClock :=
  if vcMem vc node then
    vc.map (fun p => if p.1 == node then (p.1, p.2 + 1) else p)
  else
    vc ++ [(node, 1)]

/-- First loop of `Compare`: `vcDominates` — vc has at least one counter
strictly above the corresponding counter of `other`. -/
def selfDomB (vc other : VectorClock) : Bool :=
  vc.any (fun p => vcGet other p.1 < p.2)

/-- `otherDominates` of `Compare`: set in the first loop when a counter
of vc is strictly below other's, and in the second loop by a key present
only in `other` with a positive counter. -/
def otherDomB (vc other : VectorClock) : Bool :=
  vc.any (fun p => p.2 < vcGet other p.1) ||
    other.any (fun p => !(vcMem vc p.1) && 0 < p.2)

/-- `Compare` returns the causal relationship of `vc` relative to
`other`, by the final switch of the Go function. -/
def vcCompare (vc other : VectorClock) : ClockRelation :=
  if !(selfDomB vc other) && !(otherDomB vc other) then .Equal
  else if selfDomB vc other && !(otherDomB vc other) then .After
  else if !(selfDomB vc other) && otherDomB vc other then .Before
  else .ConcurrentClocks

/-! ### Reference classification for `Compare`

Modelled from the spec: `aDom = ∃k: a[k] > b[k]` with absent keys read
as 0, and the four-way classification built from `aDom`/`bDom`.  Used
only to compare `vcCompare` against the spec's words. -/

/-- Spec-side domination as a proposition over all keys. -/
def refDom (a b : VectorClock) : Prop :=
  ∃ k : String, vcGet b k < vcGet a k

/-- Spec-side domination as a decidable check: a key with `a[k] > b[k]`
necessarily carries a positive counter in `a`, so the keys of `a`
suffice. -/
def refDomB (a b : VectorClock) : Bool :=
  (a.map Prod.fst).any (fun k => vcGet b k < vcGet a k)

/-- The spec's four-way classification of two clocks. -/
def refClassify (a b : VectorClock) : ClockRelation :=
  if !(refDomB a b) && !(refDomB b a) then .Equal
  else if refDomB a b && !(refDomB b a) then .After
  else if !(refDomB a b) && refDomB b a then .Before
  else .ConcurrentClocks

/-! ## Values, WAL entries and the store (internal/store) -/

/-- Value wraps a stored payload with the metadata used for distributed
consistency (store.go).  `updatedAt` embeds the UTC wall-clock time. -/
structure Value where
  data : String
  clock : VectorClock
  tombstone : Bool
  updatedAt : Int
deriving DecidableEq, Repr

/-- WAL operation tag for a put (wal.go). -/
def opPut : String := "PUT"

/-- WAL operation tag for a delete (wal.go). -/
def opDelete : String := "DELETE"

/-- One line of the WAL file (wal.go): the operation tag, the key, and
the full Value to apply. -/
structure WalEntry where
  op : String
  key : String
  value : Value
deriving DecidableEq, Repr

/-- The in-memory map of the store, `map[string]Value`. -/
abbrev KVMap := String → Option Value

/-- The empty map. -/
def emptyMap : KVMap := fun _ => none

/-- Go map assignment `m[key] = v`. -/
def mapUpdate (m : KVMap) (key : String) (v : Value) : KVMap :=
  fun k => if k = key then some v else m k

/-- The mutable state of a `Store`: the in-memory map, the WAL contents
(as the list of appended entries, in append order), and the node id. -/
structure StoreState where
  data : KVMap
  wal : List WalEntry
  nodeID : String

/-- `Put` (store.go): replace a nil clock by a fresh one, bump the local
counter, build the Value, append to the WAL first, then assign into the
map.  `walOk` is whether the WAL append (write + fsync) succeeds; on
failure nothing has been mutated and the error is returned. -/
def putOp (s : StoreState) (key dat : String) (clock : Option VectorClock)
    (now : Int) (walOk : Bool) : StoreState × Except String Value :=
  let clock1 := vcIncrement (clock.getD []) s.nodeID
  let v : Value := ⟨dat, clock1, false, now⟩
  if walOk then
    ({ s with data := mapUpdate s.data key v, wal := s.wal ++ [⟨opPut, key, v⟩] },
      .ok v)
  else
    (s, .error "wal append")

/-- `Get` (store.go): `(Value{}, false)` when absent or tombstoned. -/
def getOp (s : StoreState) (key : String) : Option Value :=
  match s.data key with
  | some v => if v.tombstone then none else some v
  | none => none

/-- `GetRaw` (store.go): the raw Value including tombstones. -/
def getRawOp (s : StoreState) (key : String) : Option Value :=
  s.data key

/-- `Delete` (store.go): copy the existing clock (else fresh), bump the
local counter, build a tombstone Value, WAL-append, then assign. -/
def deleteOp (s : StoreState) (key : String) (now : Int) (walOk : Bool) :
    StoreState × Except String Unit :=
  let clock0 := match s.data key with
    | some existing => existing.clock
    | none => []
  let clock1 := vcIncrement clock0 s.nodeID
  let v : Value := ⟨"", clock1, true, now⟩
  if walOk then
    ({ s with data := mapUpdate s.data key v, wal := s.wal ++ [⟨opDelete, key, v⟩] },
      .ok ())
  else
    (s, .error "wal append")

/-- The acceptance decision of `ApplyRemote` (store.go): with an existing
Value, discard on Before, on concurrent clocks discard exactly when the
incoming wall-clock time is strictly earlier (`UpdatedAt.Before`), and
accept otherwise; with no existing Value, accept. -/
def applyRemoteAccept (s : StoreState) (key : String) (incoming : Value) : Bool :=
  match s.data key with
  | some existing =>
    match vcCompare incoming.clock existing.clock with
    | .ConcurrentClocks => !(incoming.updatedAt < existing.updatedAt)
    | .Before => false
    | _ => true
  | none => true

/-- `ApplyRemote` (store.go): decide acceptance, then WAL-append the
accepted write (as a PUT entry) and assign into the map; a discarded
update returns `false` without touching anything. -/
def applyRemoteOp (s : StoreState) (key : String) (incoming : Value)
    (walOk : Bool) : StoreState × Except String Bool :=
  if applyRemoteAccept s key incoming then
    if walOk then
      ({ s with data := mapUpdate s.data key incoming,
                wal := s.wal ++ [⟨opPut, key, incoming⟩] },
        .ok true)
    else
      (s, .error "wal append")
  else
    (s, .ok false)

/-- `replayWAL` (store.go): assign each entry's Value into the map, in
append order, without inspecting the op tag and without re-appending. -/
def replayWAL (entries : List WalEntry) (m : KVMap) : KVMap :=
  entries.foldl (fun acc e => mapUpdate acc e.key e.value) m

/-- `New` (store.go), restricted to its state effect: load the snapshot
(the empty map when there is none), then replay the WAL over it. -/
def recover (snapshot : KVMap) (wal : List WalEntry) : KVMap :=
  replayWAL wal snapshot

/-! ### Sequences of mutating operations -/

/-- One successful mutating call against the store. -/
inductive Op where
  | put (key dat : String) (clock : Option VectorClock) (now : Int)
  | del (key : String) (now : Int)
  | applyRemote (key : String) (incoming : Value)

/-- Execute one successful operation (its WAL append succeeds). -/
def applyOp (s : StoreState) (op : Op) : StoreState :=
  match op with
  | .put key dat clock now => (putOp s key dat clock now true).1
  | .del key now => (deleteOp s key now true).1
  | .applyRemote key incoming => (applyRemoteOp s key incoming true).1

/-- Execute a sequence of successful operations in order. -/
def runOps (s : StoreState) (ops : List Op) : StoreState :=
  ops.foldl applyOp s

/-! ## Read reconciliation (internal/cluster/replicator.go) -/

/-- The result of contacting a single replica.  `err` embeds whether
the Go `Err` field is non-nil. -/
structure ReplicaResponse where
  nodeID : String
  value : Option Value
  err : Bool
deriving DecidableEq, Repr

/-- One iteration of the `reconcile` loop: skip errors and nils, adopt
the first candidate, and otherwise arbitrate the candidate against the
current winner by vector clock, falling back to the wall clock on
concurrent clocks. -/
def reconcileStep (acc : Option Value × List String) (r : ReplicaResponse) :
    Option Value × List String :=
  match r.value, r.err with
  | none, _ => acc
  | some _, true => acc
  | some v, false =>
    match acc.1 with
    | none => (some v, acc.2)
    | some w =>
      match vcCompare v.clock w.clock with
      | .After => (some v, acc.2 ++ [""])
      | .Before => (some w, acc.2 ++ [r.nodeID])
      | .ConcurrentClocks =>
        if w.updatedAt < v.updatedAt then (some v, acc.2)
        else (some w, acc.2 ++ [r.nodeID])
      | .Equal => (some w, acc.2)

/-- `reconcile`: fold the loop over the collected responses, starting
from no winner and no stale nodes. -/
def reconcile (rs : List ReplicaResponse) : Option Value × List String :=
  rs.foldl reconcileStep (none, [])

/-! ## Consistent-hash ring lookups

`Ring.GetNodes` (internal/cluster/membership.go) and
`ConsistentHash.GetNodes` (internal/cluster/hash.go).  A ring is
embedded as its association list of (position, nodeID) pairs with the
positions in ascending order (`rebuild` re-sorts after every change);
the SHA hash of the looked-up key is taken as an input position. -/

/-- Go's `sort.Search` over the sorted position list followed by the
wrap-to-0 fixup: the least index whose position is at least `p`, and 0
when every position is below `p`. -/
def ringSearch (sorted : List Nat) (p : Nat) : Nat :=
  match sorted.findIdx? (fun x => p ≤ x) with
  | some i => i
  | none => 0

/-- Ring map read `ring[pos]` (the Go zero value "" when absent —
unreachable for positions taken from the ring itself). -/
def ringLookup (ring : List (Nat × String)) (pos : Nat) : String :=
  match ring.find? (fun q => q.1 == pos) with
  | some q => q.2
  | none => ""

/-- The shared collection loop of both GetNodes variants: visit the ring
slots named by `idxs` while fewer than `n` distinct node IDs have been
collected, appending each first-seen node ID. -/
def collectDistinct (ring : List (Nat × String)) (sorted : List Nat)
    (idxs : List Nat) (n : Nat) (acc : List String) : List String :=
  match idxs with
  | [] => acc
  | i :: rest =>
    if n ≤ acc.length then acc
    else
      let nodeID := ringLookup ring (sorted.getD i 0)
      if acc.contains nodeID then collectDistinct ring sorted rest n acc
      else collectDistinct ring sorted rest n (acc ++ [nodeID])

/-- `Ring.GetNodes` (membership.go): after the empty-ring check, walk
clockwise from the found index — iteration `i` visits slot
`(idx + i) % len(sorted)`. -/
def ringGetNodes (ring : List (Nat × String)) (p n : Nat) : List String :=
  let sorted := ring.map Prod.fst
  if sorted.isEmpty then []
  else
    let idx := ringSearch sorted p
    collectDistinct ring sorted
      ((List.range sorted.length).map (fun i => (idx + i) % sorted.length)) n []

/-- `ConsistentHash.GetNodes` (hash.go): the same loop, but every
iteration computes `actualIdx := (idx + 1) % len(sortedKeys)` — the loop
variable is never used, so the same single slot is inspected each
time. -/
def chGetNodes (ring : List (Nat × String)) (p n : Nat) : List String :=
  let sorted := ring.map Prod.fst
  if sorted.isEmpty then []
  else
    let idx := ringSearch sorted p
    collectDistinct ring sorted
      ((List.range sorted.length).map (fun _ => (idx + 1) % sorted.length)) n []

/-- The distinct node IDs present on a ring, in first-appearance order. -/
def ringDistinctNodes (ring : List (Nat × String)) : List String :=
  (ring.map Prod.snd).dedup

/-! ## Startup quorum capping (cmd/server/main.go) -/

/-- The startup invariant check: the process is killed with a fatal
error when `W + R <= N`, so it proceeds exactly when `W + R > N`. -/
def startupCheckPasses (N W R : Nat) : Bool :=
  decide (N < W + R)

/-- The live-cluster capping before building the replicator:
`n = min(N, nodeCount)`, `w = min(W, n)`, `r = min(R, n)`. -/
def cappedQuorum (N W R c : Nat) : Nat × Nat × Nat :=
  let n := min N c
  (n, min W n, min R n)

/-! ## Snapshot effect order (Store.Snapshot, store.go)

The filesystem side of `Snapshot` is straight-line code with early
returns; it is embedded as the list of side effects that complete
before the function returns, given which steps succeed. -/

/-- The externally visible filesystem steps of `Store.Snapshot`. -/
inductive SnapEffect where
  | createTmp
  | encode
  | renameSnap
  | truncateWAL
deriving DecidableEq, Repr

/-- Run `Store.Snapshot` under the given step outcomes: create the
temporary file, encode the copied map into it, rename it over the
canonical path, and only then truncate the WAL.  Each failure returns
the error at once, so later effects do not happen.  Returns the
completed effects in order, and whether the call returned nil. -/
def snapshotRun (createOk encodeOk renameOk truncateOk : Bool) :
    List SnapEffect × Bool :=
  if !createOk then ([], false)
  else if !encodeOk then ([.createTmp], false)
  else if !renameOk then ([.createTmp, .encode], false)
  else ([.createTmp, .encode, .renameSnap, .truncateWAL], truncateOk)

/-! ## Concrete instances used by counterexamples and witnesses -/

/-- A stored Value whose clock is concurrent with `cexIncoming` and
whose wall-clock time ties it exactly. -/
def cexExisting : Value := ⟨"old", [("n1", 1)], false, 5⟩

/-- The incoming Value of the `ApplyRemote` tie counterexample. -/
def cexIncoming : Value := ⟨"new", [("n2", 1)], false, 5⟩

/-- A store holding `cexExisting` under key "k". -/
def cexStore : StoreState :=
  ⟨mapUpdate emptyMap "k" cexExisting, [], "self"⟩

/-- A two-node ring: position 10 belongs to node A, position 20 to
node B. -/
def cexRing : List (Nat × String) := [(10, "A"), (20, "B")]

/-- A Value strictly newer (by clock) than `cexOlder`. -/
def cexNewer : Value := ⟨"newer", [("n1", 2)], false, 9⟩

/-- A Value strictly older (by clock) than `cexNewer`. -/
def cexOlder : Value := ⟨"older", [("n1", 1)], false, 3⟩

/-- A store holding `cexNewer` under key "k". -/
def cexStore2 : StoreState :=
  ⟨mapUpdate emptyMap "k" cexNewer, [], "self"⟩

/-- A replica response carrying `cexExisting` from node "a". -/
def cexR0 : ReplicaResponse := ⟨"a", some cexExisting, false⟩

/-- A replica response carrying `cexIncoming` from node "b". -/
def cexR1 : ReplicaResponse := ⟨"b", some cexIncoming, false⟩

/-! ## Association-list lemmas about vector clock reads -/

theorem vcMem_false_get (a : VectorClock) (k : String)
    (h : vcMem a k = false) : vcGet a k = 0 := by
  unfold vcMem at h
  unfold vcGet
  cases hf : List.find? (fun p => p.1 == k) a with
  | none => rfl
  | some p => rw [hf] at h; simp at h

theorem vcMem_true_get (a : VectorClock) (k : String)
    (h : vcMem a k = true) : ∃ p, p ∈ a ∧ p.1 = k ∧ p.2 = vcGet a k := by
  unfold vcMem at h
  cases hf : List.find? (fun p => p.1 == k) a with
  | none => rw [hf] at h; simp at h
  | some p =>
    have hb : (p.1 == k) = true := by simpa using List.find?_some hf
    refine ⟨p, List.mem_of_find?_eq_some hf, eq_of_beq hb, ?_⟩
    unfold vcGet
    rw [hf]

theorem vcGet_ne_zero_mem (a : VectorClock) (k : String)
    (h : vcGet a k ≠ 0) : vcMem a k = true := by
  cases hm : vcMem a k with
  | false => exact absurd (vcMem_false_get a k hm) h
  | true => rfl

theorem vcGet_nodup_mem (a : VectorClock) (p : String × Nat)
    (hnd : vcNodupKeys a) (hp : p ∈ a) : vcGet a p.1 = p.2 := by
  induction a with
  | nil => cases hp
  | cons q rest ih =>
    unfold vcNodupKeys at hnd
    rw [List.map_cons, List.nodup_cons] at hnd
    rcases List.mem_cons.mp hp with h | h
    · subst h
      unfold vcGet
      rw [List.find?_cons_of_pos _ (by simp)]
    · have hne : ¬ ((fun r => r.1 == p.1) q = true) := by
        intro hb
        exact hnd.1 ((eq_of_beq hb) ▸ List.mem_map_of_mem Prod.fst h)
      unfold vcGet
      rw [List.find?_cons_of_neg (p := fun r : String × Nat => r.1 == p.1) _ hne]
      exact ih hnd.2 h

theorem vcMem_cons (a : VectorClock) (k j : String) (c : Nat) :
    vcMem ((k, c) :: a) j = ((k == j) || vcMem a j) := by
  unfold vcMem
  by_cases h : (k == j) = true
  · rw [List.find?_cons_of_pos (p := fun r : String × Nat => r.1 == j) _ h]
    simp [h]
  · rw [List.find?_cons_of_neg (p := fun r : String × Nat => r.1 == j) _ h]
    have h2 : (k == j) = false := by simpa using h
    rw [h2, Bool.false_or]

theorem vcGet_cons (a : VectorClock) (k j : String) (c : Nat) :
    vcGet ((k, c) :: a) j = if (k == j) = true then c else vcGet a j := by
  by_cases h : (k == j) = true
  · rw [if_pos h]
    unfold vcGet
    rw [List.find?_cons_of_pos (p := fun r : String × Nat => r.1 == j) _ h]
  · rw [if_neg h]
    unfold vcGet
    rw [List.find?_cons_of_neg (p := fun r : String × Nat => r.1 == j) _ h]

theorem vcGet_cons_zero_absent (b : VectorClock) (k : String)
    (hk : vcMem b k = false) (j : String) :
    vcGet ((k, 0) :: b) j = vcGet b j := by
  rw [vcGet_cons]
  by_cases h : (k == j) = true
  · rw [if_pos h]
    have hkj : j = k := (eq_of_beq h).symm
    rw [hkj, vcMem_false_get b k hk]
  · rw [if_neg h]

/-! ## Compare against the spec classification -/

theorem refDomB_iff (a b : VectorClock) :
    refDomB a b = true ↔ refDom a b := by
  unfold refDomB refDom
  rw [List.any_eq_true]
  constructor
  · rintro ⟨k, hk, hlt⟩
    exact ⟨k, by simpa using hlt⟩
  · rintro ⟨k, hlt⟩
    have hne : vcGet a k ≠ 0 := by omega
    rcases vcMem_true_get a k (vcGet_ne_zero_mem a k hne) with ⟨p, hp, hp1, hp2⟩
    refine ⟨k, ?_, by simpa using hlt⟩
    rw [← hp1]
    exact List.mem_map_of_mem Prod.fst hp

theorem selfDomB_eq_refDomB (a b : VectorClock) (ha : vcNodupKeys a) :
    selfDomB a b = refDomB a b := by
  rw [Bool.eq_iff_iff]
  unfold selfDomB refDomB
  rw [List.any_eq_true, List.any_eq_true]
  constructor
  · rintro ⟨p, hp, hlt⟩
    refine ⟨p.1, List.mem_map_of_mem Prod.fst hp, ?_⟩
    have hv := vcGet_nodup_mem a p ha hp
    simp only [decide_eq_true_eq] at hlt ⊢
    omega
  · rintro ⟨k, hk, hlt⟩
    simp only [decide_eq_true_eq] at hlt
    have hne : vcGet a k ≠ 0 := by omega
    rcases vcMem_true_get a k (vcGet_ne_zero_mem a k hne) with ⟨p, hp, hp1, hp2⟩
    refine ⟨p, hp, ?_⟩
    simp only [decide_eq_true_eq]
    subst hp1
    omega

theorem otherDomB_eq_refDomB (a b : VectorClock)
    (ha : vcNodupKeys a) (hb : vcNodupKeys b) :
    otherDomB a b = refDomB b a := by
  rw [Bool.eq_iff_iff]
  unfold otherDomB refDomB
  rw [Bool.or_eq_true, List.any_eq_true, List.any_eq_true, List.any_eq_true]
  constructor
  · rintro (⟨p, hp, hlt⟩ | ⟨p, hp, hcond⟩)
    · have hpa := vcGet_nodup_mem a p ha hp
      simp only [decide_eq_true_eq] at hlt
      have hne : vcGet b p.1 ≠ 0 := by omega
      rcases vcMem_true_get b p.1 (vcGet_ne_zero_mem b p.1 hne) with ⟨q, hq, hq1, hq2⟩
      refine ⟨p.1, ?_, ?_⟩
      · rw [← hq1]
        exact List.mem_map_of_mem Prod.fst hq
      · simp only [decide_eq_true_eq]
        omega
    · rw [Bool.and_eq_true] at hcond
      rcases hcond with ⟨hnm, hpos⟩
      have hnm2 : vcMem a p.1 = false := by
        cases hmm : vcMem a p.1
        · rfl
        · rw [hmm] at hnm; simp at hnm
      have h0 : vcGet a p.1 = 0 := vcMem_false_get a p.1 hnm2
      have hpb := vcGet_nodup_mem b p hb hp
      simp only [decide_eq_true_eq] at hpos
      refine ⟨p.1, List.mem_map_of_mem Prod.fst hp, ?_⟩
      simp only [decide_eq_true_eq]
      omega
  · rintro ⟨k, hk, hlt⟩
    simp only [decide_eq_true_eq] at hlt
    cases hm : vcMem a k with
    | true =>
      rcases vcMem_true_get a k hm with ⟨p, hp, hp1, hp2⟩
      left
      refine ⟨p, hp, ?_⟩
      simp only [decide_eq_true_eq]
      subst hp1
      omega
    | false =>
      have h0 : vcGet a k = 0 := vcMem_false_get a k hm
      have hne : vcGet b k ≠ 0 := by omega
      rcases vcMem_true_get b k (vcGet_ne_zero_mem b k hne) with ⟨q, hq, hq1, hq2⟩
      right
      refine ⟨q, hq, ?_⟩
      rw [Bool.and_eq_true]
      constructor
      · rw [hq1, hm]
        rfl
      · simp only [decide_eq_true_eq]
        omega

/-- Claim C3: Compare agrees with the reference classification of the
spec — with absent keys read as 0, the result is Equal / After / Before
/ ConcurrentClocks exactly according to which of the two clocks has some
strictly larger counter, for clocks with the distinct keys of a Go map;
and the decidable domination check coincides with the existential
formulation. -/
theorem vcCompare_matches_reference (a b : VectorClock)
    (ha : vcNodupKeys a) (hb : vcNodupKeys b) :
    vcCompare a b = refClassify a b
    ∧ (refDomB a b = true ↔ refDom a b)
    ∧ (refDomB b a = true ↔ refDom b a) := by
  refine ⟨?_, refDomB_iff a b, refDomB_iff b a⟩
  unfold vcCompare refClassify
  rw [selfDomB_eq_refDomB a b ha, otherDomB_eq_refDomB a b ha hb]

/-- Witness for C3 at two concrete concurrent clocks. -/
theorem vcCompare_matches_reference_witness :
    vcNodupKeys [("n1", 2)] ∧ vcNodupKeys [("n2", 3)]
    ∧ (vcCompare [("n1", 2)] [("n2", 3)] = refClassify [("n1", 2)] [("n2", 3)]
       ∧ (refDomB [("n1", 2)] [("n2", 3)] = true ↔ refDom [("n1", 2)] [("n2", 3)])
       ∧ (refDomB [("n2", 3)] [("n1", 2)] = true ↔ refDom [("n2", 3)] [("n1", 2)])) :=
  ⟨by decide, by decide,
    vcCompare_matches_reference [("n1", 2)] [("n2", 3)] (by decide) (by decide)⟩

/-! ## Zero-counter insensitivity of Compare -/

theorem selfDomB_cons_zero (a b : VectorClock) (k : String) :
    selfDomB ((k, 0) :: a) b = selfDomB a b := by
  unfold selfDomB
  rw [List.any_cons]
  simp

theorem otherDomB_cons_zero (a b : VectorClock) (k : String)
    (hk : vcMem a k = false) (hb : vcNodupKeys b) :
    otherDomB ((k, 0) :: a) b = otherDomB a b := by
  rw [Bool.eq_iff_iff]
  unfold otherDomB
  rw [Bool.or_eq_true, Bool.or_eq_true, List.any_cons, Bool.or_eq_true]
  simp only [List.any_eq_true]
  constructor
  · rintro ((h0 | ⟨p, hp, hlt⟩) | ⟨p, hp, hcond⟩)
    · -- first loop saw the inserted zero below a positive counter of b
      simp only [decide_eq_true_eq] at h0
      have hne : vcGet b k ≠ 0 := by omega
      rcases vcMem_true_get b k (vcGet_ne_zero_mem b k hne) with ⟨q, hq, hq1, hq2⟩
      right
      refine ⟨q, hq, ?_⟩
      rw [Bool.and_eq_true]
      refine ⟨?_, by simp only [decide_eq_true_eq]; omega⟩
      rw [hq1, hk]
      rfl
    · exact Or.inl ⟨p, hp, hlt⟩
    · right
      refine ⟨p, hp, ?_⟩
      rw [Bool.and_eq_true] at hcond ⊢
      refine ⟨?_, hcond.2⟩
      have := hcond.1
      rw [vcMem_cons] at this
      cases hmm : vcMem a p.1
      · rfl
      · rw [hmm, Bool.or_true] at this
        simp at this
  · rintro (⟨p, hp, hlt⟩ | ⟨p, hp, hcond⟩)
    · exact Or.inl (Or.inr ⟨p, hp, hlt⟩)
    · rw [Bool.and_eq_true] at hcond
      rcases hcond with ⟨hnm, hpos⟩
      have hnm2 : vcMem a p.1 = false := by
        cases hmm : vcMem a p.1
        · rfl
        · rw [hmm] at hnm; simp at hnm
      by_cases hkp : (k == p.1) = true
      · -- the inserted key names this entry of b: its counter is positive
        left; left
        have hkp2 : k = p.1 := eq_of_beq hkp
        have hpb := vcGet_nodup_mem b p hb hp
        simp only [decide_eq_true_eq] at hpos ⊢
        rw [hkp2]
        omega
      · right
        refine ⟨p, hp, ?_⟩
        rw [Bool.and_eq_true]
        refine ⟨?_, hpos⟩
        rw [vcMem_cons]
        have hkp2 : (k == p.1) = false := by simpa using hkp
        rw [hkp2, hnm2]
        rfl

theorem vcGet_pointwise_any (a : VectorClock) (f : String × Nat → Nat → Bool)
    (g h : String → Nat) (hgh : ∀ j, g j = h j) :
    a.any (fun p => f p (g p.1)) = a.any (fun p => f p (h p.1)) := by
  induction a with
  | nil => rfl
  | cons q rest ih =>
    rw [List.any_cons, List.any_cons, hgh, ih]

/-- Claim C10: entries with counter 0 never change a Compare result —
a zero entry may be added to (equivalently, removed from) either clock
under a fresh key without effect, and a clock of zero-valued entries
compares Equal to the empty clock. -/
theorem vcCompare_zero_insensitive (a b zs : VectorClock) (k : String) :
    (vcMem a k = false → vcNodupKeys b →
      vcCompare ((k, 0) :: a) b = vcCompare a b)
    ∧ (vcMem b k = false →
      vcCompare a ((k, 0) :: b) = vcCompare a b)
    ∧ ((∀ p ∈ zs, p.2 = 0) → vcCompare zs [] = .Equal) := by
  refine ⟨?_, ?_, ?_⟩
  · intro hk hb
    unfold vcCompare
    rw [selfDomB_cons_zero, otherDomB_cons_zero a b k hk hb]
  · intro hk
    have hself : selfDomB a ((k, 0) :: b) = selfDomB a b := by
      unfold selfDomB
      exact vcGet_pointwise_any a (fun p x => decide (x < p.2)) _ _
        (vcGet_cons_zero_absent b k hk)
    have hother : otherDomB a ((k, 0) :: b) = otherDomB a b := by
      unfold otherDomB
      rw [List.any_cons]
      have h1 : a.any (fun p => p.2 < vcGet ((k, 0) :: b) p.1)
          = a.any (fun p => p.2 < vcGet b p.1) :=
        vcGet_pointwise_any a (fun p x => decide (p.2 < x)) _ _
          (vcGet_cons_zero_absent b k hk)
      rw [h1]
      simp
    unfold vcCompare
    rw [hself, hother]
  · intro hz
    have hself : selfDomB zs [] = false := by
      unfold selfDomB
      rw [List.any_eq_false]
      intro p hp
      have := hz p hp
      simp [vcGet, this]
    have hother : otherDomB zs [] = false := by
      unfold otherDomB
      rw [Bool.or_eq_false_iff]
      refine ⟨?_, rfl⟩
      rw [List.any_eq_false]
      intro p hp
      simp [vcGet]
    unfold vcCompare
    rw [hself, hother]
    rfl

/-- Witness for C10 at concrete clocks. -/
theorem vcCompare_zero_insensitive_witness :
    (vcMem [("n1", 1)] "z" = false ∧ vcNodupKeys [("n2", 1)]
     ∧ vcMem [("n2", 1)] "z" = false ∧ (∀ p ∈ ([("w", 0)] : VectorClock), p.2 = 0))
    ∧ vcCompare (("z", 0) :: [("n1", 1)]) [("n2", 1)]
        = vcCompare [("n1", 1)] [("n2", 1)]
    ∧ vcCompare [("n1", 1)] (("z", 0) :: [("n2", 1)])
        = vcCompare [("n1", 1)] [("n2", 1)]
    ∧ vcCompare [("w", 0)] [] = .Equal :=
  ⟨⟨by decide, by decide, by decide, by decide⟩,
    (vcCompare_zero_insensitive [("n1", 1)] [("n2", 1)] [("w", 0)] "z").1
      (by decide) (by decide),
    (vcCompare_zero_insensitive [("n1", 1)] [("n2", 1)] [("w", 0)] "z").2.1
      (by decide),
    (vcCompare_zero_insensitive [("n1", 1)] [("n2", 1)] [("w", 0)] "z").2.2
      (by decide)⟩

/-! ## Crash recovery -/

theorem replayWAL_append (es : List WalEntry) (e : WalEntry) (m : KVMap) :
    replayWAL (es ++ [e]) m = mapUpdate (replayWAL es m) e.key e.value := by
  unfold replayWAL
  rw [List.foldl_append]
  rfl

theorem applyOp_wal_invariant (s : StoreState) (init : KVMap) (op : Op)
    (h : replayWAL s.wal init = s.data) :
    replayWAL (applyOp s op).wal init = (applyOp s op).data := by
  cases op with
  | put key dat clock now =>
    show replayWAL (putOp s key dat clock now true).1.wal init
      = (putOp s key dat clock now true).1.data
    unfold putOp
    simp only [if_true]
    rw [replayWAL_append, h]
  | del key now =>
    show replayWAL (deleteOp s key now true).1.wal init
      = (deleteOp s key now true).1.data
    unfold deleteOp
    simp only [if_true]
    rw [replayWAL_append, h]
  | applyRemote key incoming =>
    show replayWAL (applyRemoteOp s key incoming true).1.wal init
      = (applyRemoteOp s key incoming true).1.data
    unfold applyRemoteOp
    by_cases hacc : applyRemoteAccept s key incoming
    · rw [if_pos hacc]
      simp only [if_true]
      rw [replayWAL_append, h]
    · rw [if_neg hacc]
      exact h

/-- Claim C1: crash recovery is equivalent to execution — after any
sequence of successful put / delete / applyRemote calls starting from a
loaded snapshot and an empty WAL, replaying the WAL the store produced
over that snapshot (entry by entry, in append order, assigning each
entry's Value without re-appending) reconstructs exactly the final
in-memory map. -/
theorem crash_recovery_equiv (init : KVMap) (nodeID : String) (ops : List Op) :
    recover init (runOps ⟨init, [], nodeID⟩ ops).wal
      = (runOps ⟨init, [], nodeID⟩ ops).data := by
  suffices h : ∀ s : StoreState, replayWAL s.wal init = s.data →
      replayWAL (runOps s ops).wal init = (runOps s ops).data by
    exact h ⟨init, [], nodeID⟩ rfl
  intro s hs
  induction ops generalizing s with
  | nil => exact hs
  | cons op rest ih =>
    exact ih (applyOp s op) (applyOp_wal_invariant s init op hs)

/-! ## Replay ignores the op tag -/

theorem replayWAL_ignores_op (es : List WalEntry) (m : KVMap)
    (f : WalEntry → String) :
    replayWAL (es.map (fun e => ⟨f e, e.key, e.value⟩)) m = replayWAL es m := by
  induction es generalizing m with
  | nil => rfl
  | cons e rest ih =>
    unfold replayWAL
    rw [List.map_cons, List.foldl_cons, List.foldl_cons]
    exact ih (mapUpdate m e.key e.value)

/-- Claim C9: WAL replay is op-agnostic — rewriting every entry's op tag
(in particular turning DELETE entries into anything else) leaves the
replayed map unchanged, because replay assigns each entry's stored Value
without inspecting the tag; consequently, after recovering from a put of
a key followed by its delete, GetRaw still finds the key (the tombstone
Value was stored back) while Get reports it as absent. -/
theorem replay_op_agnostic (es : List WalEntry) (m : KVMap)
    (f : WalEntry → String) (k dat : String) (clock : Option VectorClock)
    (t1 t2 : Int) (nodeID : String) :
    replayWAL (es.map (fun e => ⟨f e, e.key, e.value⟩)) m = replayWAL es m
    ∧ (getRawOp ⟨recover emptyMap (runOps ⟨emptyMap, [], nodeID⟩
          [.put k dat clock t1, .del k t2]).wal, [], nodeID⟩ k).isSome = true
    ∧ getOp ⟨recover emptyMap (runOps ⟨emptyMap, [], nodeID⟩
          [.put k dat clock t1, .del k t2]).wal, [], nodeID⟩ k = none := by
  refine ⟨replayWAL_ignores_op es m f, ?_, ?_⟩ <;>
    simp [runOps, applyOp, putOp, deleteOp, recover, replayWAL, mapUpdate,
      getRawOp, getOp, emptyMap]

/-! ## Atomicity of mutations on WAL failure -/

/-- Claim C7: when the WAL append inside Put, Delete or ApplyRemote
fails, the call returns the error and the whole store state — in
particular the in-memory map — is exactly what it was before the call;
for ApplyRemote the append is only attempted on an accepted value, and a
discarded value returns false without an error. -/
theorem wal_failure_atomicity (s : StoreState) (key dat : String)
    (clock : Option VectorClock) (now : Int) (incoming : Value) :
    ((putOp s key dat clock now false).1 = s
      ∧ (putOp s key dat clock now false).2 = .error "wal append")
    ∧ ((deleteOp s key now false).1 = s
      ∧ (deleteOp s key now false).2 = .error "wal append")
    ∧ ((applyRemoteOp s key incoming false).1 = s
      ∧ (applyRemoteOp s key incoming false).2 =
          (if applyRemoteAccept s key incoming then .error "wal append"
           else .ok false)) := by
  refine ⟨⟨rfl, rfl⟩, ⟨rfl, rfl⟩, ?_, ?_⟩ <;>
    by_cases h : applyRemoteAccept s key incoming <;>
      simp [applyRemoteOp, h]

/-! ## ApplyRemote arbitration -/

/-- Counterexample to C2 as stated: with an existing Value whose clock
is concurrent with the incoming one and whose updatedAt ties it exactly,
ApplyRemote applies the incoming Value (applied = true, map overwritten)
— it does not keep the existing Value. -/
theorem applyRemote_tie_accepts_incoming :
    vcCompare cexIncoming.clock cexExisting.clock = .ConcurrentClocks
    ∧ cexIncoming.updatedAt = cexExisting.updatedAt
    ∧ cexStore.data "k" = some cexExisting
    ∧ (applyRemoteOp cexStore "k" cexIncoming true).2 = .ok true
    ∧ (applyRemoteOp cexStore "k" cexIncoming true).1.data "k" = some cexIncoming := by
  refine ⟨by decide, by decide, rfl, rfl, rfl⟩

/-- Claim C2 (amended): ApplyRemote discards the incoming Value when its
clock compares Before the existing clock, accepts it on After or Equal,
and on concurrent clocks accepts it exactly when its updatedAt is not
strictly earlier — so on an exact updatedAt tie the incoming Value is
applied; with no existing Value it is accepted unconditionally. -/
theorem applyRemote_arbitration (s : StoreState) (key : String)
    (incoming existing : Value) :
    (s.data key = some existing →
      (vcCompare incoming.clock existing.clock = .Before →
        (applyRemoteOp s key incoming true).1 = s
        ∧ (applyRemoteOp s key incoming true).2 = .ok false)
      ∧ ((vcCompare incoming.clock existing.clock = .After
            ∨ vcCompare incoming.clock existing.clock = .Equal) →
        (applyRemoteOp s key incoming true).1.data key = some incoming
        ∧ (applyRemoteOp s key incoming true).2 = .ok true)
      ∧ (vcCompare incoming.clock existing.clock = .ConcurrentClocks →
        (existing.updatedAt ≤ incoming.updatedAt →
          (applyRemoteOp s key incoming true).1.data key = some incoming
          ∧ (applyRemoteOp s key incoming true).2 = .ok true)
        ∧ (incoming.updatedAt < existing.updatedAt →
          (applyRemoteOp s key incoming true).1 = s
          ∧ (applyRemoteOp s key incoming true).2 = .ok false)))
    ∧ (s.data key = none →
      (applyRemoteOp s key incoming true).1.data key = some incoming
      ∧ (applyRemoteOp s key incoming true).2 = .ok true) := by
  constructor
  · intro hex
    have hacc : applyRemoteAccept s key incoming =
        match vcCompare incoming.clock existing.clock with
        | .ConcurrentClocks => !(incoming.updatedAt < existing.updatedAt)
        | .Before => false
        | _ => true := by
      unfold applyRemoteAccept
      rw [hex]
    refine ⟨?_, ?_, ?_⟩
    · intro hrel
      have h : applyRemoteAccept s key incoming = false := by rw [hacc, hrel]
      simp [applyRemoteOp, h]
    · intro hrel
      have h : applyRemoteAccept s key incoming = true := by
        rcases hrel with hrel | hrel <;> rw [hacc, hrel]
      simp [applyRemoteOp, h, mapUpdate]
    · intro hrel
      constructor
      · intro hle
        have h : applyRemoteAccept s key incoming = true := by
          rw [hacc, hrel]
          simp only [Bool.not_eq_true']
          simpa using hle
        simp [applyRemoteOp, h, mapUpdate]
      · intro hlt
        have h : applyRemoteAccept s key incoming = false := by
          rw [hacc, hrel]
          simpa using hlt
        simp [applyRemoteOp, h]
  · intro hnone
    have h : applyRemoteAccept s key incoming = true := by
      unfold applyRemoteAccept
      rw [hnone]
    simp [applyRemoteOp, h, mapUpdate]

/-- Witness for C2 (amended) at a concrete strictly-older incoming
Value, which is discarded. -/
theorem applyRemote_arbitration_witness :
    cexStore2.data "k" = some cexNewer
    ∧ vcCompare cexOlder.clock cexNewer.clock = .Before
    ∧ ((applyRemoteOp cexStore2 "k" cexOlder true).1 = cexStore2
       ∧ (applyRemoteOp cexStore2 "k" cexOlder true).2 = .ok false) :=
  ⟨rfl, by decide,
    ((applyRemote_arbitration cexStore2 "k" cexOlder cexNewer).1 rfl).1 (by decide)⟩

/-! ## Reconciliation -/

theorem reconcile_append (rs : List ReplicaResponse) (r : ReplicaResponse) :
    reconcile (rs ++ [r]) = reconcileStep (reconcile rs) r := by
  unfold reconcile
  rw [List.foldl_append]
  rfl

theorem reconcileStep_fst_none (acc : Option Value × List String)
    (r : ReplicaResponse) :
    ((reconcileStep acc r).1 = none
      ↔ acc.1 = none ∧ (r.err = true ∨ r.value = none)) := by
  obtain ⟨ow, st⟩ := acc
  obtain ⟨nid, val, err⟩ := r
  unfold reconcileStep
  rcases val with _ | v
  · simp
  · cases err
    · rcases ow with _ | w
      · simp
      · rcases hrel : vcCompare v.clock w.clock <;> simp [hrel]
        split <;> simp
    · simp

theorem reconcile_fst_none_iff (rs : List ReplicaResponse) :
    ((reconcile rs).1 = none ↔ ∀ x ∈ rs, x.err = true ∨ x.value = none) := by
  induction rs using List.reverseRecOn with
  | nil => simp [reconcile]
  | append_singleton l r ih =>
    rw [reconcile_append, reconcileStep_fst_none, ih,
      List.forall_mem_append, List.forall_mem_singleton]

theorem reconcileStep_cases (st : List String) (nid : String) (v w : Value) :
    (vcCompare v.clock w.clock = .After →
      reconcileStep (some w, st) ⟨nid, some v, false⟩ = (some v, st ++ [""]))
    ∧ (vcCompare v.clock w.clock = .Before →
      reconcileStep (some w, st) ⟨nid, some v, false⟩ = (some w, st ++ [nid]))
    ∧ (vcCompare v.clock w.clock = .ConcurrentClocks →
      (w.updatedAt < v.updatedAt →
        reconcileStep (some w, st) ⟨nid, some v, false⟩ = (some v, st))
      ∧ (v.updatedAt ≤ w.updatedAt →
        reconcileStep (some w, st) ⟨nid, some v, false⟩ = (some w, st ++ [nid]))) := by
  have hstep : reconcileStep (some w, st) ⟨nid, some v, false⟩ =
      match vcCompare v.clock w.clock with
      | .After => (some v, st ++ [""])
      | .Before => (some w, st ++ [nid])
      | .ConcurrentClocks =>
        if w.updatedAt < v.updatedAt then (some v, st) else (some w, st ++ [nid])
      | .Equal => (some w, st) := rfl
  rw [hstep]
  refine ⟨?_, ?_, ?_⟩
  · intro hrel; rw [hrel]
  · intro hrel; rw [hrel]
  · intro hrel
    rw [hrel]
    constructor
    · intro hlt
      simp only
      rw [if_pos hlt]
    · intro hle
      simp only
      rw [if_neg (by omega)]

/-- Claim C4: the reconcile fold — a response with an error or nil Value
is ignored; the first candidate becomes the winner; a later candidate
replaces the winner when its clock compares After (the unknown old
winner recorded as stale under the empty id), is itself marked stale on
Before, and on concurrent clocks replaces the winner exactly when its
updatedAt is strictly later, being marked stale (winner kept) otherwise,
tie included; the winner is nil iff every response was nil or an
error. -/
theorem reconcile_fold_behavior (rs : List ReplicaResponse)
    (r : ReplicaResponse) :
    ((r.err = true ∨ r.value = none) → reconcile (rs ++ [r]) = reconcile rs)
    ∧ (∀ v, r.err = false → r.value = some v →
        ((reconcile rs).1 = none →
          reconcile (rs ++ [r]) = (some v, (reconcile rs).2))
        ∧ (∀ w, (reconcile rs).1 = some w →
            (vcCompare v.clock w.clock = .After →
              reconcile (rs ++ [r]) = (some v, (reconcile rs).2 ++ [""]))
            ∧ (vcCompare v.clock w.clock = .Before →
              reconcile (rs ++ [r]) = (some w, (reconcile rs).2 ++ [r.nodeID]))
            ∧ (vcCompare v.clock w.clock = .ConcurrentClocks →
              (w.updatedAt < v.updatedAt →
                reconcile (rs ++ [r]) = (some v, (reconcile rs).2))
              ∧ (v.updatedAt ≤ w.updatedAt →
                reconcile (rs ++ [r]) = (some w, (reconcile rs).2 ++ [r.nodeID])))))
    ∧ ((reconcile rs).1 = none ↔ ∀ x ∈ rs, x.err = true ∨ x.value = none) := by
  refine ⟨?_, ?_, reconcile_fst_none_iff rs⟩
  · intro hskip
    rw [reconcile_append]
    obtain ⟨nid, val, err⟩ := r
    unfold reconcileStep
    rcases val with _ | v
    · rfl
    · rcases hskip with h | h
      · simp only at h
        rw [h]
      · simp at h
  · intro v herr hval
    rw [reconcile_append]
    obtain ⟨nid, val, err⟩ := r
    simp only at herr hval
    subst herr
    subst hval
    constructor
    · intro hnone
      unfold reconcileStep
      simp only
      rw [hnone]
    · intro w hsome
      have hpair : reconcile rs = (some w, (reconcile rs).2) := by
        rw [← hsome]
      rw [hpair]
      exact reconcileStep_cases (reconcile rs).2 nid v w

/-- Witness for C4 at a concrete concurrent tie: the candidate with the
equal updatedAt is marked stale and the current winner kept. -/
theorem reconcile_fold_behavior_witness :
    (cexR1.err = false ∧ cexR1.value = some cexIncoming
     ∧ (reconcile [cexR0]).1 = some cexExisting
     ∧ vcCompare cexIncoming.clock cexExisting.clock = .ConcurrentClocks
     ∧ cexIncoming.updatedAt ≤ cexExisting.updatedAt)
    ∧ reconcile ([cexR0] ++ [cexR1])
        = (some cexExisting, (reconcile [cexR0]).2 ++ [cexR1.nodeID]) :=
  ⟨⟨rfl, rfl, rfl, by decide, by decide⟩,
    ((((reconcile_fold_behavior [cexR0] cexR1).2.1 cexIncoming rfl rfl).2
        cexExisting rfl).2.2 (by decide)).2 (by decide)⟩

/-! ## Ring lookup -/

/-- Claim C5: divergence of `ConsistentHash.GetNodes` (hash.go) from the
ring walk.  On a ring with two distinct physical nodes (A at position
10, B at position 20) and a key hashing to 0, the clockwise walk from
the first position at or after 0 yields A then B, as `Ring.GetNodes`
(membership.go) does; `ConsistentHash.GetNodes` instead inspects the
same slot `(idx + 1) % len` on every iteration — it returns only B for
n = 2 (missing node A entirely), and even for n = 1 it returns B rather
than the first node clockwise. -/
theorem chGetNodes_skips_ring_walk :
    chGetNodes cexRing 0 2 = ["B"]
    ∧ chGetNodes cexRing 0 1 = ["B"]
    ∧ ringGetNodes cexRing 0 2 = ["A", "B"]
    ∧ ringGetNodes cexRing 0 1 = ["A"]
    ∧ ringDistinctNodes cexRing = ["A", "B"] := by
  refine ⟨by decide, by decide, by decide, by decide, by decide⟩

/-! ## Startup quorum capping -/

/-- Counterexample to C6 as stated: the configuration N = 3, W = 4,
R = 0 satisfies the startup check W + R > N, yet with one live node the
capped values are n = 1, w = 1, r = 0, violating w + r > n — the node
starts although the invariant cannot hold. -/
theorem quorum_cap_counterexample :
    startupCheckPasses 3 4 0 = true
    ∧ (cappedQuorum 3 4 0 1).2.1 + (cappedQuorum 3 4 0 1).2.2
        ≤ (cappedQuorum 3 4 0 1).1 := by
  decide

/-- Claim C6 (amended): for positive configured N, W, R with
W + R > N and any live node count c ≥ 1, the capped values
n = min(N, c), w = min(W, n), r = min(R, n) still satisfy w + r > n;
the startup refusal triggers exactly when the configured values violate
W + R > N (the capped values are not re-checked). -/
theorem quorum_cap_preserves_invariant (N W R c : Nat)
    (hN : 1 ≤ N) (hW : 1 ≤ W) (hR : 1 ≤ R) (hc : 1 ≤ c) (hWR : N < W + R) :
    (cappedQuorum N W R c).1
        < (cappedQuorum N W R c).2.1 + (cappedQuorum N W R c).2.2
    ∧ (startupCheckPasses N W R = false ↔ W + R ≤ N) := by
  constructor
  · simp only [cappedQuorum]
    omega
  · rw [startupCheckPasses, decide_eq_false_iff_not]
    omega

/-- Witness for C6 (amended) at the default configuration N = 3, W = 2,
R = 2 with a single live node. -/
theorem quorum_cap_preserves_invariant_witness :
    (1 ≤ 3 ∧ 1 ≤ 2 ∧ 1 ≤ 1 ∧ 3 < 2 + 2)
    ∧ ((cappedQuorum 3 2 2 1).1
          < (cappedQuorum 3 2 2 1).2.1 + (cappedQuorum 3 2 2 1).2.2
       ∧ (startupCheckPasses 3 2 2 = false ↔ 2 + 2 ≤ 3)) :=
  ⟨by decide,
    quorum_cap_preserves_invariant 3 2 2 1 (by decide) (by decide) (by decide)
      (by decide) (by decide)⟩

/-! ## Snapshot before truncate -/

/-- Claim C8: in every outcome of Store.Snapshot, the WAL truncation
effect occurs only after the snapshot rename committed (among the
completed effects, rename precedes truncation), and any failure of the
create, encode or rename step makes Snapshot return the error with the
WAL untouched. -/
theorem snapshot_before_truncate (c e r t : Bool) :
    (SnapEffect.truncateWAL ∈ (snapshotRun c e r t).1 →
      SnapEffect.renameSnap ∈ (snapshotRun c e r t).1
      ∧ (snapshotRun c e r t).1.filter
          (fun x => x == SnapEffect.renameSnap || x == SnapEffect.truncateWAL)
          = [SnapEffect.renameSnap, SnapEffect.truncateWAL])
    ∧ ((c = false ∨ e = false ∨ r = false) →
      (snapshotRun c e r t).2 = false
      ∧ SnapEffect.truncateWAL ∉ (snapshotRun c e r t).1) := by
  revert c e r t
  decide

/-- Witness for C8 on the all-steps-succeed execution. -/
theorem snapshot_before_truncate_witness :
    SnapEffect.truncateWAL ∈ (snapshotRun true true true true).1
    ∧ (SnapEffect.renameSnap ∈ (snapshotRun true true true true).1
       ∧ (snapshotRun true true true true).1.filter
           (fun x => x == SnapEffect.renameSnap || x == SnapEffect.truncateWAL)
           = [SnapEffect.renameSnap, SnapEffect.truncateWAL]) :=
  ⟨by decide, (snapshot_before_truncate true true true true).1 (by decide)⟩

end GodKV
